import Mathlib

/-!
Verification development for the Feroxbuster-output parser
(`Ferox_parser.py`).  The Python source is embedded shallowly: every
definition below mirrors one function (or one fixed data literal) of the
source file, translated to pure Lean functions over `String`, `List` and
`Nat`.  Dictionaries are modelled extensionally (association lists or
functions), file I/O is out of scope (functions take the already-read
lines / URL lists as arguments, exactly the data the Python functions
iterate over).

Modelling notes, used throughout:
* Python `str` is modelled by `String`; the inputs relevant here are ASCII
  scanner lines and URLs.
* `urllib.parse.urlparse` is modelled for the URLs this program feeds it:
  strings produced by the `https?://\S+` extraction (scheme `http` or
  `https`), where `.path` is the substring after the netloc up to `?` or
  `#`.  The legacy `;parameters` splitting of `urlparse` is not modelled;
  no input below contains `;`.
* `urllib.parse.urljoin(base, p)` is only reachable in `build_tree` with
  `p` either empty or an absolute path (a path of an `https?://` URL), and
  is modelled for exactly those cases.
-/

/-- Characters dropped from the right by Python `str.rstrip(chars)`. -/
def rstripAny (bad : List Char) (s : String) : String :=
  String.mk ((s.toList.reverse.dropWhile (fun c => bad.contains c)).reverse)

/-- Python `s.strip(c)` for a single strip character. -/
def stripChar (c : Char) (s : String) : String :=
  String.mk (((s.toList.dropWhile (· == c)).reverse.dropWhile (· == c)).reverse)

/-- Python `s.startswith(p)`, character by character. -/
def pyStartsWith (s p : String) : Bool :=
  p.toList.isPrefixOf s.toList

/-- Python `s.endswith(p)`, character by character. -/
def pyEndsWith (s p : String) : Bool :=
  p.toList.isSuffixOf s.toList

/-- Python `s.lower()` (the strings in play are ASCII). -/
def pyLower (s : String) : String :=
  String.mk (s.toList.map Char.toLower)

/-- Python `s.replace(c, d)` for one-character patterns (the only use in the
source is `.replace('\\', '/')`). -/
def replaceChar (c d : Char) (s : String) : String :=
  String.mk (s.toList.map (fun x => if x == c then d else x))

/-- Python `s.split(sep)` for a one-character separator: `""` splits to
`[""]`, adjacent separators produce empty fields. -/
def splitOnChar (sep : Char) : List Char → List (List Char)
  | [] => [[]]
  | c :: cs =>
    match splitOnChar sep cs with
    | [] => [[]]
    | h :: t => if c == sep then [] :: h :: t else (c :: h) :: t

/-- Splits off the `http`/`https` scheme of a URL, returning the scheme name
and the remainder after `://`. -/
def splitScheme (url : String) : Option (String × String) :=
  if pyStartsWith url "http://" then some ("http", url.drop 7)
  else if pyStartsWith url "https://" then some ("https", url.drop 8)
  else none

/-- `urlparse(url).path` for the URLs occurring in this program: everything
after the netloc, truncated at `?` or `#`.  For a scheme-less string the
whole string up to `?`/`#` is the path, as in `urlparse`. -/
def urlPath (url : String) : String :=
  match splitScheme url with
  | some sr =>
    String.mk ((sr.2.toList.dropWhile
        (fun c => !(c == '/' || c == '?' || c == '#'))).takeWhile
        (fun c => !(c == '?' || c == '#')))
  | none => String.mk (url.toList.takeWhile (fun c => !(c == '?' || c == '#')))

/-- `os.path.basename`: the part of a path after the last `/`. -/
def basenameOf (path : String) : String :=
  String.mk ((path.toList.reverse.takeWhile (fun c => !(c == '/'))).reverse)

/-- The extension part of `os.path.splitext` on a slash-free name: the suffix
from the last dot, provided some earlier character of the name is not a dot
(leading dots mark a dotfile, not an extension). -/
def splitextExt (s : String) : String :=
  let cs := s.toList
  match (cs.enum.filter (fun ic => ic.2 == '.')).getLast? with
  | none => ""
  | some ic =>
    if (cs.take ic.1).any (fun c => !(c == '.')) then String.mk (cs.drop ic.1)
    else ""

/-- `is_dir` of the source: a URL denotes a directory iff it ends in `/`. -/
def is_dir (url : String) : Bool := pyEndsWith url "/"

/-! ## The tree (`TreeNode`) -/

/-- `TreeNode` of the source.  `children` is a Python dict keyed by the child
name; since `add_child` always stores `TreeNode(child_name, …)` under key
`child_name`, the key always equals the child's `name` and the dict is
modelled as the insertion-ordered list of child nodes. -/
inductive TreeNode : Type where
  | mk (name : String) (is_dir : Bool) (children : List TreeNode) : TreeNode

def TreeNode.name : TreeNode → String
  | .mk n _ _ => n

def TreeNode.is_dir : TreeNode → Bool
  | .mk _ d _ => d

def TreeNode.children : TreeNode → List TreeNode
  | .mk _ _ cs => cs

/-- Whether the children dict already has an entry for `childName`
(`child_name in self.children`). -/
def TreeNode.hasChild (t : TreeNode) (childName : String) : Bool :=
  t.children.any (fun c => c.name == childName)

/-- `TreeNode.add_child` of the source, as a function on the parent: if no
child of that name exists a fresh node is appended; otherwise the parent is
unchanged (in particular the existing child keeps its `is_dir`). -/
def TreeNode.add_child (t : TreeNode) (childName : String) (childIsDir : Bool) : TreeNode :=
  if t.hasChild childName then t
  else TreeNode.mk t.name t.is_dir (t.children ++ [TreeNode.mk childName childIsDir []])

/-- Replace the first child with the given name by `f` of it (the dict-update
part of walking into `add_child`'s return value). -/
def updateNamed (seg : String) (f : TreeNode → TreeNode) : List TreeNode → List TreeNode
  | [] => []
  | c :: cs => if c.name == seg then f c :: cs else c :: updateNamed seg f cs

/-- The inner loop of `build_tree` for one resource: walk/create nodes
segment by segment via `add_child`.  Each list entry is a path segment
together with the `part_is_dir` flag computed by `build_tree`. -/
def insertPath : List (String × Bool) → TreeNode → TreeNode
  | [], t => t
  | (seg, segDir) :: rest, t =>
    if t.hasChild seg then
      TreeNode.mk t.name t.is_dir
        (updateNamed seg (fun c => insertPath rest c) t.children)
    else
      TreeNode.mk t.name t.is_dir
        (t.children ++ [insertPath rest (TreeNode.mk seg segDir [])])

/-- Follow a list of segment names through the tree (dict lookups). -/
def reach : TreeNode → List String → Option TreeNode
  | t, [] => some t
  | t, n :: ns =>
    match t.children.find? (fun c => c.name == n) with
    | some c => reach c ns
    | none => none

/-- `urljoin(base_path, p)` restricted to the reachable cases: `p` is the
path of an `https?://` URL, hence empty or starting with `/`; an absolute
`p` replaces the base, an empty `p` yields the base. -/
def pyUrljoin (bp path : String) : String :=
  if path = "" then bp else path

/-- The path adjustment at the top of the `build_tree` loop
(lines 74–78 of the source). -/
def adjustedPath (base : Option String) (url : String) : String :=
  let path := urlPath url
  match base with
  | none => path
  | some b =>
    let bp := urlPath b
    if pyStartsWith path bp then path
    else if bp ≠ "/" then pyUrljoin bp path else path

/-- `path.strip('/').split('/')` of the source. -/
def pathParts (path : String) : List String :=
  (splitOnChar '/' (stripChar '/' path).toList).map String.mk

/-- The `(part, part_is_dir)` sequence the `build_tree` loop feeds into
`add_child` for one URL: empty parts are skipped, every part before the last
is a directory, the last is a directory iff the URL ends in `/`. -/
def segsOf (base : Option String) (url : String) : List (String × Bool) :=
  let parts := pathParts (adjustedPath base url)
  let n := parts.length
  parts.enum.filterMap (fun ip =>
    if ip.2 = "" then none
    else some (ip.2, decide (ip.1 < n - 1) || is_dir url))

/-- `build_tree` of the source: fold every URL's segments into the tree
rooted at the synthetic `/` directory node. -/
def build_tree (urls : List String) (base_url : Option String) : TreeNode :=
  urls.foldl (fun root url => insertPath (segsOf base_url url) root)
    (TreeNode.mk "/" true [])

/-! ## Line parser (`extract_urls`) -/

/-- The regex `https?://\S+` tried at the current position: the scheme must
be literally present and at least one non-whitespace character must follow
`://`; the match greedily extends over non-whitespace. -/
def tryUrlAt (cs : List Char) : Option (List Char) :=
  if ("http://".toList).isPrefixOf cs then
    let body := (cs.drop 7).takeWhile (fun c => !c.isWhitespace)
    if body.isEmpty then none else some ("http://".toList ++ body)
  else if ("https://".toList).isPrefixOf cs then
    let body := (cs.drop 8).takeWhile (fun c => !c.isWhitespace)
    if body.isEmpty then none else some ("https://".toList ++ body)
  else none

/-- `re.search` of `https?://\S+` on one line followed by the source's
`.rstrip(' ,')` of the matched group: the leftmost match wins. -/
def findUrl : List Char → Option String
  | [] => none
  | c :: cs =>
    match tryUrlAt (c :: cs) with
    | some u => some (rstripAny [' ', ','] (String.mk u))
    | none => findUrl cs

/-- `extract_urls` of the source, with the file already read into its list
of lines (the `open`/`readlines` I/O is outside the core): every line whose
text contains an `https?://\S+` match contributes its (stripped) first
match, all other lines are skipped.  No status code is inspected. -/
def extract_urls (lines : List String) : List String :=
  lines.filterMap (fun line => findUrl line.toList)

/-! ## Base-URL detector (`detect_base_url`) -/

/-- `f"{parsed.scheme}://{parsed.netloc}"` for URLs with truthy scheme and
netloc, `none` otherwise. -/
def originOf (url : String) : Option String :=
  match splitScheme url with
  | some sr =>
    let netloc := sr.2.toList.takeWhile (fun c => !(c == '/' || c == '?' || c == '#'))
    if netloc.isEmpty then none else some (sr.1 ++ "://" ++ String.mk netloc)
  | none => none

/-- The distinct members of the Python set `base_urls`, listed in first-seen
order (one particular enumeration of the set). -/
def origins (urls : List String) : List String :=
  urls.foldl (fun acc u =>
    match originOf u with
    | some o => if acc.contains o then acc else acc ++ [o]
    | none => acc) []

/-- The key of the `max` call: how many URLs the candidate prefixes
(`sum(1 for url in urls if url.startswith(x))`). -/
def urlMatches (urls : List String) (b : String) : Nat :=
  (urls.filter (fun u => pyStartsWith u b)).length

/-- Python `max(..., key=urlMatches urls)` over the iteration order
`first :: rest`: a later candidate replaces the current one only when its
key is strictly larger, so the first maximum in iteration order wins. -/
def pickMax (urls : List String) (first : String) (rest : List String) : String :=
  rest.foldl (fun best x =>
    if urlMatches urls best < urlMatches urls x then x else best) first

/-- `detect_base_url` of the source.  A Python `set` has no specified
iteration order (string hashing is randomized per process), so the order in
which `max` consumes `base_urls` is an extra parameter `setOrder`; every
permutation of the distinct origins is a possible run.  `validOrder`
(below) says which `setOrder`s can occur for the given `urls`. -/
def detect_base_url (setOrder : List String) (urls : List String) : Option String :=
  if urls.isEmpty then none
  else
    match setOrder with
    | [] => none
    | [b] => some b
    | b :: rest => some (pickMax urls b rest)

/-- `setOrder` enumerates exactly the distinct origins of `urls`. -/
def validOrder (urls : List String) (setOrder : List String) : Prop :=
  setOrder.Nodup ∧ ∀ o, o ∈ setOrder ↔ o ∈ origins urls

/-! ## Classifier (`identify_important_files`, `is_file_important`) -/

/-- The keyword list shared by the sensitive-filename regex of
`identify_important_files` and the `sensitive_keywords` of
`is_file_important`. -/
def sensitive_keywords : List String := ["admin", "password", "passwd"]

/-- Python `needle in hay` on strings (substring containment). -/
def listContains (hay needle : List Char) : Bool :=
  needle.isPrefixOf hay ||
    match hay with
    | [] => false
    | _ :: t => listContains t needle

/-- Python `sub in s`. -/
def containsSub (s sub : String) : Bool := listContains s.toList sub.toList

/-- `\w` of the `re` module, for the ASCII characters in play. -/
def wordChar (c : Char) : Bool := c.isAlphanum || c == '_'

/-- Both `\b` boundaries around a keyword occurrence.  The keywords consist
of letters only, so the boundary condition is exactly: the neighbouring
character (when any) is not a word character. -/
def boundaryOk (prev : Option Char) (after : List Char) : Bool :=
  (match prev with
   | none => true
   | some c => !wordChar c) &&
  (match after with
   | [] => true
   | c :: _ => !wordChar c)

/-- One keyword matching at the current position with `\b` on both sides. -/
def wwHere (prev : Option Char) (cs : List Char) (kw : List Char) : Bool :=
  kw.isPrefixOf cs && boundaryOk prev (cs.drop kw.length)

/-- Scan of the whole string for a whole-word keyword occurrence, tracking
the previous character for the left boundary. -/
def wwScan (prev : Option Char) (cs : List Char) : Bool :=
  sensitive_keywords.any (fun kw => wwHere prev cs kw.toList) ||
    match cs with
    | [] => false
    | c :: t => wwScan (some c) t

/-- `re.search` of the IGNORECASE pattern `\b(admin|password|passwd)\b` on a
filename, modelled on the lower-cased text (the keywords are lower-case
letters, so case-insensitive matching equals matching on the lowered
string). -/
def sensSearch (filename : String) : Bool :=
  wwScan none (pyLower filename).toList

/-- `'Password Managers'` extension alternatives of the source. -/
def pm_exts : List String := ["kdbx", "1pif", "psafe3", "pwd", "dat", "bpw", "lck"]

/-- `'Backup Files'` extension alternatives of the source. -/
def backup_exts : List String := ["bak", "backup", "old", "wbk", "bck", "tmp"]

/-- `'Network Configuration Files'` extension alternatives of the source. -/
def netconf_exts : List String := ["conf", "cfg", "ini", "config", "htaccess", "htpasswd"]

/-- `'Database Files'` extension alternatives of the source. -/
def db_exts : List String := ["sql", "db", "sqlite", "sqlite3", "mdb", "accdb", "frm", "myd", "myi"]

/-- `re.search` of an IGNORECASE pattern `\.(e1|e2|…)$` on a filename: the
filename ends, case-insensitively, in a dot followed by one of the
alternatives. -/
def extGroupMatch (filename : String) (group : List String) : Bool :=
  group.any (fun e => pyEndsWith (pyLower filename) ("." ++ e))

/-- Whether some extension pattern of `important_patterns` other than the
sensitive-keyword one matches (the `for category, pattern … break` loop;
which of the four groups fires first does not change the appended entry). -/
def anyExtGroup (filename : String) : Bool :=
  extGroupMatch filename pm_exts || extGroupMatch filename backup_exts ||
    extGroupMatch filename netconf_exts || extGroupMatch filename db_exts

/-- The per-filename decision of `identify_important_files`: included iff
the whole-word keyword regex or one of the four extension regexes matches. -/
def identifyPred (filename : String) : Bool :=
  sensSearch filename || anyExtGroup filename

/-- `truncate_to_parent` of the source. -/
def truncate_to_parent (path : String) : String :=
  match (pathParts path).reverse with
  | last :: parent :: _ => parent ++ "/" ++ last
  | [only] => only
  | [] => path

/-- `identify_important_files` of the source: for each URL with a non-empty
basename, append `(display, url)` when the sensitive-keyword regex matches,
else when one of the four extension regexes matches. -/
def identify_important_files (urls : List String) : List (String × String) :=
  urls.foldl (fun acc url =>
    let path := urlPath url
    let filename := basenameOf path
    if filename = "" then acc
    else if sensSearch filename then acc ++ [(truncate_to_parent path, url)]
    else if anyExtGroup filename then acc ++ [(truncate_to_parent path, url)]
    else acc) []

/-- `important_extensions` of `is_file_important`, verbatim. -/
def important_extensions : List String :=
  [".kdbx", ".1pif", ".psafe3", ".pwd", ".dat", ".bpw", ".lck",
   ".bak", ".backup", ".old", ".wbk", ".bck", ".tmp",
   ".conf", ".cfg", ".ini", ".config", ".htaccess", ".htpasswd",
   ".sql", ".db", ".sqlite", ".sqlite3", ".mdb", ".accdb", ".frm", ".myd", ".myi",
   ".doc", ".docx", ".xls", ".xlsx", ".ppt", ".pptx", ".rtf", ".pdf", ".odt",
   ".ods", ".odp", ".txt", ".log", ".json", ".xml", ".yaml", ".yml", ".csv",
   ".zip", ".rar", ".7z"]

/-- The plain-substring keyword check of `is_file_important`
(`any(keyword in filename_lower …)`). -/
def substrSens (filename : String) : Bool :=
  sensitive_keywords.any (fun kw => containsSub (pyLower filename) kw)

/-- `is_file_important` of the source: substring keyword check first, then
`os.path.splitext` extension membership on the lower-cased name. -/
def is_file_important (filename : String) : Bool :=
  if substrSens filename then true
  else if important_extensions.contains (splitextExt (pyLower filename)) then true
  else false

/-! ## All-Files categorisation (`categorize_source_files`) -/

/-- `os.path.splitext(path)[1].lower()` on a POSIX path: CPython only
recognises a dot after the last separator, so the extension of a path is
the extension of its basename. -/
def extOf (url : String) : String :=
  pyLower (splitextExt (basenameOf (urlPath url)))

/-- Appending a URL to its extension's bucket in the insertion-ordered
`defaultdict(list)`. -/
def addToGroups (groups : List (String × List String)) (e url : String) :
    List (String × List String) :=
  match groups with
  | [] => [(e, [url])]
  | g :: gs =>
    if g.1 == e then (g.1, g.2 ++ [url]) :: gs else g :: addToGroups gs e url

/-- Insert one bucket into a list already sorted by extension key (Python
`sorted(…, key=lambda x: x[0])`, realised as an insertion sort; `sorted` is
stable and the keys here are distinct, so the results agree). -/
def insertSorted (g : String × List String) :
    List (String × List String) → List (String × List String)
  | [] => [g]
  | h :: t =>
    if compare h.1 g.1 == Ordering.lt || compare h.1 g.1 == Ordering.eq then
      h :: insertSorted g t
    else g :: h :: t

/-- The final `sorted(extensions.items(), key=lambda x: x[0])`. -/
def sortGroups (gs : List (String × List String)) : List (String × List String) :=
  gs.foldr insertSorted []

/-- `categorize_source_files` of the source: directory URLs are skipped,
files with an empty extension are skipped, the rest are grouped by
lower-cased extension and the groups sorted by extension. -/
def categorize_source_files (urls : List String) : List (String × List String) :=
  sortGroups (urls.foldl (fun groups url =>
    if is_dir url then groups
    else
      let e := extOf url
      if e = "" then groups else addToGroups groups e url) [])

/-! ## Aggregator (`count_directories`) -/

/-- One value of the inner `defaultdict`: `{'path': …, 'subdirs': 0,
'files': 0, 'items': []}`.  The `'path'` field always equals the key it is
stored under and is dropped from the model. -/
structure DirInfo where
  subdirs : Nat
  files : Nat
  items : List String
deriving DecidableEq, Repr

/-- The `counts` dictionary.  `directories` is the `defaultdict` modelled
extensionally as a function from path keys to `DirInfo` (every key reads as
the default until written). -/
structure Counts where
  total_dirs : Nat
  total_files : Nat
  directories : String → DirInfo

/-- The fresh `counts` created on the initial call. -/
def initCounts : Counts := ⟨0, 0, fun _ => ⟨0, 0, []⟩⟩

/-- `os.path.join` (POSIX): an absolute second component replaces the
first, otherwise the parts are glued with `/` unless the first is empty or
already ends in `/`. -/
def pyJoin (a b : String) : String :=
  if pyStartsWith b "/" then b
  else if a = "" || pyEndsWith a "/" then a ++ b
  else a ++ "/" ++ b

/-- `os.path.join(current_path, node.name).replace('\\', '/').rstrip('/')`
of the source. -/
def joinPath (cp nm : String) : String :=
  rstripAny ['/'] (replaceChar '\\' '/' (pyJoin cp nm))

/-- `counts['directories'][path]['subdirs'] += 1`. -/
def bumpSubdir (c : Counts) (path : String) : Counts :=
  { c with directories := fun p =>
      if p = path then
        { c.directories path with subdirs := (c.directories path).subdirs + 1 }
      else c.directories p }

/-- The file-child branch: bump `files` and `total_files`, append the
child's name to `items`. -/
def bumpFile (c : Counts) (path cname : String) : Counts :=
  { c with
    total_files := c.total_files + 1,
    directories := fun p =>
      if p = path then
        { c.directories path with
          files := (c.directories path).files + 1,
          items := (c.directories path).items ++ [cname] }
      else c.directories p }

mutual

/-- `count_directories` of the source: a file node returns `counts`
untouched; a directory node bumps `total_dirs`, computes its path key and
walks its children. -/
def count_directories : TreeNode → Counts → String → Counts
  | TreeNode.mk nm d cs, counts, current_path =>
    if d then
      countChildren (joinPath current_path nm) cs
        { counts with total_dirs := counts.total_dirs + 1 }
    else counts

/-- The `for child in node.children.values()` loop: per child one bump at
the parent's path key, then the recursive call on the child with
`path + '/'`. -/
def countChildren : String → List TreeNode → Counts → Counts
  | _, [], c => c
  | path, child :: rest, c =>
    countChildren path rest
      (count_directories child
        (if child.is_dir then bumpSubdir c path else bumpFile c path child.name)
        (path ++ "/"))

end

/-! ## Specification-side observations on trees and counts

The following definitions do not model source lines; they are the
observations the claims talk about (sibling-name uniqueness, per-node child
counts, the set of nodes the aggregator visits). -/

/-- Number of immediate children with `kind=directory`. -/
def ndirs (cs : List TreeNode) : Nat :=
  (cs.filter (fun c => c.is_dir)).length

/-- Number of immediate children with `kind=file`. -/
def nfiles (cs : List TreeNode) : Nat :=
  (cs.filter (fun c => !c.is_dir)).length

/-- Names of the immediate file children, in order. -/
def fileNames (cs : List TreeNode) : List String :=
  (cs.filter (fun c => !c.is_dir)).map TreeNode.name

mutual

/-- Number of directory nodes reachable from this node through directory
nodes only — exactly the nodes on which the aggregator bumps
`total_dirs`. -/
def specDirs : TreeNode → Nat
  | .mk _ d cs => if d then 1 + specDirsList cs else 0

def specDirsList : List TreeNode → Nat
  | [] => 0
  | c :: cs => specDirs c + specDirsList cs

end

mutual

/-- Sum of the immediate file-child counts over all directory nodes
reachable through directory nodes. -/
def specFiles : TreeNode → Nat
  | .mk _ d cs => if d then nfiles cs + specFilesList cs else 0

def specFilesList : List TreeNode → Nat
  | [] => 0
  | c :: cs => specFiles c + specFilesList cs

end

mutual

/-- Sum of the immediate directory-child counts over all directory nodes
reachable through directory nodes (the sum of the per-directory
`subdirs` entries). -/
def specSubdirs : TreeNode → Nat
  | .mk _ d cs => if d then ndirs cs + specSubdirsList cs else 0

def specSubdirsList : List TreeNode → Nat
  | [] => 0
  | c :: cs => specSubdirs c + specSubdirsList cs

end

mutual

/-- The aggregator-visited directory nodes whose computed path key equals
`p`, in traversal order. -/
def nodesAt (p : String) : TreeNode → String → List TreeNode
  | TreeNode.mk nm d cs, cp =>
    if d then
      (if joinPath cp nm = p then [TreeNode.mk nm d cs] else []) ++
        nodesAtList p cs (joinPath cp nm ++ "/")
    else []

def nodesAtList (p : String) : List TreeNode → String → List TreeNode
  | [], _ => []
  | c :: cs, cp => nodesAt p c cp ++ nodesAtList p cs cp

end

mutual

/-- Sibling-name uniqueness, everywhere in the tree, by exact (non
case-folded) segment name. -/
def nodupNames : TreeNode → Prop
  | .mk _ _ cs => (cs.map TreeNode.name).Nodup ∧ nodupNamesList cs

def nodupNamesList : List TreeNode → Prop
  | [] => True
  | c :: cs => nodupNames c ∧ nodupNamesList cs

end

/-! ## Lemmas about the tree builder -/

theorem insertPath_name (segs : List (String × Bool)) (t : TreeNode) :
    (insertPath segs t).name = t.name := by
  cases segs with
  | nil => rfl
  | cons sp rest =>
    obtain ⟨seg, sd⟩ := sp
    by_cases h : t.hasChild seg = true <;> simp [insertPath, h, TreeNode.name]

theorem insertPath_is_dir (segs : List (String × Bool)) (t : TreeNode) :
    (insertPath segs t).is_dir = t.is_dir := by
  cases segs with
  | nil => rfl
  | cons sp rest =>
    obtain ⟨seg, sd⟩ := sp
    by_cases h : t.hasChild seg = true <;> simp [insertPath, h, TreeNode.is_dir]

theorem updateNamed_map_name (seg : String) (f : TreeNode → TreeNode) (cs : List TreeNode)
    (hf : ∀ c, (f c).name = c.name) :
    (updateNamed seg f cs).map TreeNode.name = cs.map TreeNode.name := by
  induction cs with
  | nil => rfl
  | cons c cs ih =>
    by_cases h : (c.name == seg) = true <;> simp [updateNamed, h, hf, ih]

theorem hasChild_iff_mem_names (t : TreeNode) (seg : String) :
    t.hasChild seg = true ↔ seg ∈ t.children.map TreeNode.name := by
  constructor
  · intro h
    obtain ⟨c, hc, hn⟩ := List.any_eq_true.mp h
    exact List.mem_map.mpr ⟨c, hc, (beq_iff_eq.mp hn).symm ▸ rfl⟩
  · intro h
    obtain ⟨c, hc, hn⟩ := List.mem_map.mp h
    exact List.any_eq_true.mpr ⟨c, hc, beq_iff_eq.mpr hn⟩

theorem find?_eq_none_of_not_hasChild (cs : List TreeNode) (seg : String)
    (h : cs.any (fun c => c.name == seg) = false) :
    cs.find? (fun c => c.name == seg) = none := by
  rw [List.find?_eq_none]
  intro x hx
  simp only [List.any_eq_false] at h
  exact h x hx

theorem find?_updateNamed_ne (seg m : String) (f : TreeNode → TreeNode)
    (cs : List TreeNode) (hf : ∀ c, (f c).name = c.name) (hne : m ≠ seg) :
    (updateNamed seg f cs).find? (fun c => c.name == m)
      = cs.find? (fun c => c.name == m) := by
  induction cs with
  | nil => rfl
  | cons c cs ih =>
    by_cases h : (c.name == seg) = true
    · have hcm : (c.name == m) = false := by
        rw [beq_eq_false_iff_ne]
        rw [beq_iff_eq] at h
        rw [h]
        exact fun hm => hne hm.symm
      have hfm : ((f c).name == m) = false := by rw [hf]; exact hcm
      simp [updateNamed, h, List.find?, hcm, hfm]
    · simp only [updateNamed, h, if_false]
      by_cases hm : (c.name == m) = true <;> simp [List.find?, hm, ih]

theorem find?_updateNamed_eq (seg : String) (f : TreeNode → TreeNode)
    (cs : List TreeNode) (hf : ∀ c, (f c).name = c.name) :
    (updateNamed seg f cs).find? (fun c => c.name == seg)
      = (cs.find? (fun c => c.name == seg)).map f := by
  induction cs with
  | nil => rfl
  | cons c cs ih =>
    by_cases h : (c.name == seg) = true
    · have hfm : ((f c).name == seg) = true := by rw [hf]; exact h
      simp [updateNamed, h, List.find?, hfm]
    · simp [updateNamed, h, List.find?, ih]

theorem any_name_eq_map (cs : List TreeNode) (s : String) :
    cs.any (fun c => c.name == s) = (cs.map TreeNode.name).any (fun n => n == s) := by
  induction cs <;> simp_all

theorem updateNamed_idem_of (seg : String) (f : TreeNode → TreeNode) (cs : List TreeNode)
    (hf : ∀ c, (f c).name = c.name) (hff : ∀ c, f (f c) = f c) :
    updateNamed seg f (updateNamed seg f cs) = updateNamed seg f cs := by
  induction cs with
  | nil => rfl
  | cons c cs ih =>
    by_cases h : (c.name == seg) = true
    · have hfc : ((f c).name == seg) = true := by rw [hf]; exact h
      simp [updateNamed, h, hfc, hff]
    · simp [updateNamed, h, ih]

theorem updateNamed_of_no_match (seg : String) (f : TreeNode → TreeNode)
    (cs : List TreeNode) (h : cs.any (fun c => c.name == seg) = false) :
    updateNamed seg f cs = cs := by
  induction cs with
  | nil => rfl
  | cons c cs ih =>
    simp only [List.any_cons, Bool.or_eq_false_iff] at h
    simp [updateNamed, h.1, ih h.2]

theorem updateNamed_append (seg : String) (f : TreeNode → TreeNode)
    (cs xs : List TreeNode) (h : cs.any (fun c => c.name == seg) = false) :
    updateNamed seg f (cs ++ xs) = cs ++ updateNamed seg f xs := by
  induction cs with
  | nil => rfl
  | cons c cs ih =>
    simp only [List.any_cons, Bool.or_eq_false_iff] at h
    simp [updateNamed, h.1, ih h.2]

theorem insertPath_idem (segs : List (String × Bool)) (t : TreeNode) :
    insertPath segs (insertPath segs t) = insertPath segs t := by
  induction segs generalizing t with
  | nil => rfl
  | cons sp rest ih =>
    obtain ⟨seg, sd⟩ := sp
    cases t with
    | mk nm d cs =>
      by_cases h : (TreeNode.mk nm d cs).hasChild seg = true
      · have hnames :
            (updateNamed seg (fun c => insertPath rest c) cs).map TreeNode.name
              = cs.map TreeNode.name :=
          updateNamed_map_name _ _ _ (fun c => insertPath_name rest c)
        have h2 : (TreeNode.mk nm d
            (updateNamed seg (fun c => insertPath rest c) cs)).hasChild seg = true := by
          rw [hasChild_iff_mem_names] at h ⊢
          simpa [TreeNode.children, hnames] using h
        simp only [insertPath, h, if_true, h2, TreeNode.name, TreeNode.is_dir,
          TreeNode.children]
        rw [updateNamed_idem_of _ _ _ (fun c => insertPath_name rest c) ih]
      · rw [Bool.not_eq_true] at h
        have hfalse : cs.any (fun c => c.name == seg) = false := by
          simpa [TreeNode.hasChild, TreeNode.children] using h
        have hx : (insertPath rest (TreeNode.mk seg sd [])).name = seg :=
          insertPath_name rest _
        have hxb : ((insertPath rest (TreeNode.mk seg sd [])).name == seg) = true :=
          beq_iff_eq.mpr hx
        have h2 : (TreeNode.mk nm d
            (cs ++ [insertPath rest (TreeNode.mk seg sd [])])).hasChild seg = true := by
          simp [TreeNode.hasChild, TreeNode.children, List.any_append, hxb]
        simp only [insertPath, h, Bool.false_eq_true, if_false, h2, if_true,
          TreeNode.name, TreeNode.is_dir, TreeNode.children]
        rw [updateNamed_append _ _ _ _ hfalse]
        simp [updateNamed, hxb, ih]

theorem build_tree_dup (urls : List String) (base : Option String) (u : String) :
    build_tree (urls ++ [u, u]) base = build_tree (urls ++ [u]) base := by
  simp only [build_tree, List.foldl_append, List.foldl]
  exact insertPath_idem _ _

theorem nodupNamesList_append (cs xs : List TreeNode) :
    nodupNamesList (cs ++ xs) ↔ nodupNamesList cs ∧ nodupNamesList xs := by
  induction cs with
  | nil => simp [nodupNamesList]
  | cons c cs ih => simp [nodupNamesList, ih, and_assoc]

theorem nodupNamesList_updateNamed (seg : String) (f : TreeNode → TreeNode)
    (cs : List TreeNode) (hf : ∀ c, nodupNames c → nodupNames (f c))
    (h : nodupNamesList cs) : nodupNamesList (updateNamed seg f cs) := by
  induction cs with
  | nil => exact h
  | cons c cs ih =>
    rw [nodupNamesList] at h
    by_cases hc : (c.name == seg) = true
    · rw [updateNamed, if_pos hc, nodupNamesList]
      exact ⟨hf c h.1, h.2⟩
    · rw [updateNamed, if_neg hc, nodupNamesList]
      exact ⟨h.1, ih h.2⟩

theorem nodupNames_insertPath (segs : List (String × Bool)) (t : TreeNode)
    (h : nodupNames t) : nodupNames (insertPath segs t) := by
  induction segs generalizing t with
  | nil => exact h
  | cons sp rest ih =>
    obtain ⟨seg, sd⟩ := sp
    cases t with
    | mk nm d cs =>
      rw [nodupNames] at h
      by_cases hc : (TreeNode.mk nm d cs).hasChild seg = true
      · simp only [insertPath, hc, if_true]
        rw [nodupNames]
        refine ⟨?_, nodupNamesList_updateNamed _ _ _ (fun c hcn => ih c hcn) h.2⟩
        rw [updateNamed_map_name _ _ _ (fun c => insertPath_name rest c)]
        exact h.1
      · have hni : seg ∉ cs.map TreeNode.name := by
          intro hm
          exact hc ((hasChild_iff_mem_names (TreeNode.mk nm d cs) seg).mpr hm)
        rw [Bool.not_eq_true] at hc
        simp only [insertPath, hc, Bool.false_eq_true, if_false]
        rw [nodupNames]
        constructor
        · rw [List.map_append]
          simp only [List.map_cons, List.map_nil, insertPath_name rest]
          rw [List.nodup_append]
          refine ⟨h.1, List.nodup_singleton _, ?_⟩
          intro a ha hb
          simp only [TreeNode.name, List.mem_singleton] at hb
          exact hni (hb ▸ ha)
        · rw [nodupNamesList_append]
          refine ⟨h.2, ih _ ?_, trivial⟩
          rw [nodupNames]
          exact ⟨List.nodup_nil, trivial⟩

theorem find?_append_left {p : TreeNode → Bool} (cs xs : List TreeNode) (c : TreeNode)
    (h : cs.find? p = some c) : (cs ++ xs).find? p = some c := by
  induction cs with
  | nil => cases h
  | cons a cs ih =>
    by_cases ha : p a = true
    · simp only [List.find?, ha] at h ⊢
      exact h
    · rw [Bool.not_eq_true] at ha
      simp only [List.find?, ha] at h ⊢
      exact ih h

theorem find?_append_right {p : TreeNode → Bool} (cs xs : List TreeNode)
    (h : cs.find? p = none) : (cs ++ xs).find? p = xs.find? p := by
  induction cs with
  | nil => rfl
  | cons a cs ih =>
    by_cases ha : p a = true
    · simp [List.find?, ha] at h
    · rw [Bool.not_eq_true] at ha
      simp only [List.find?, ha] at h ⊢
      exact ih h

theorem reach_insertPath_isSome (segs : List (String × Bool)) (t : TreeNode) :
    (reach (insertPath segs t) (segs.map Prod.fst)).isSome = true := by
  induction segs generalizing t with
  | nil => rfl
  | cons sp rest ih =>
    obtain ⟨seg, sd⟩ := sp
    cases t with
    | mk nm d cs =>
      by_cases hc : (TreeNode.mk nm d cs).hasChild seg = true
      · have hex : (cs.find? (fun c => c.name == seg)).isSome = true := by
          rw [List.find?_isSome]
          simpa [TreeNode.hasChild, TreeNode.children, List.any_eq_true] using hc
        obtain ⟨c, hfc⟩ := Option.isSome_iff_exists.mp hex
        have hup : (updateNamed seg (fun x => insertPath rest x) cs).find?
            (fun x => x.name == seg) = some (insertPath rest c) := by
          rw [find?_updateNamed_eq _ _ _ (fun x => insertPath_name rest x), hfc]
          rfl
        simp only [insertPath, hc, if_true, List.map_cons, reach, TreeNode.children,
          hup]
        exact ih c
      · rw [Bool.not_eq_true] at hc
        have hnone : cs.find? (fun x => x.name == seg) = none :=
          find?_eq_none_of_not_hasChild cs seg
            (by simpa [TreeNode.hasChild, TreeNode.children] using hc)
        have hx : ((insertPath rest (TreeNode.mk seg sd [])).name == seg) = true :=
          beq_iff_eq.mpr (insertPath_name rest _)
        have happ : (cs ++ [insertPath rest (TreeNode.mk seg sd [])]).find?
            (fun x => x.name == seg) = some (insertPath rest (TreeNode.mk seg sd [])) := by
          rw [find?_append_right _ _ hnone]
          simp [List.find?, hx]
        simp only [insertPath, hc, Bool.false_eq_true, if_false, List.map_cons, reach,
          TreeNode.children, happ]
        exact ih _

theorem reach_insertPath_pres (segs : List (String × Bool)) (t : TreeNode)
    (names : List String) (n : TreeNode) (h : reach t names = some n) :
    ∃ n', reach (insertPath segs t) names = some n'
      ∧ n'.name = n.name ∧ n'.is_dir = n.is_dir := by
  induction segs generalizing t names n with
  | nil => exact ⟨n, h, rfl, rfl⟩
  | cons sp rest ih =>
    obtain ⟨seg, sd⟩ := sp
    cases names with
    | nil =>
      rw [reach] at h
      injection h with h
      subst h
      exact ⟨insertPath ((seg, sd) :: rest) t, rfl, insertPath_name _ _,
        insertPath_is_dir _ _⟩
    | cons m ms =>
      cases t with
      | mk nm d cs =>
        cases hfind : cs.find? (fun c => c.name == m) with
        | none =>
          simp only [reach, TreeNode.children, hfind] at h
          cases h
        | some c =>
          simp only [reach, TreeNode.children, hfind] at h
          by_cases hc : (TreeNode.mk nm d cs).hasChild seg = true
          · by_cases hm : m = seg
            · subst hm
              have hup : (updateNamed m (fun x => insertPath rest x) cs).find?
                  (fun x => x.name == m) = some (insertPath rest c) := by
                rw [find?_updateNamed_eq _ _ _ (fun x => insertPath_name rest x), hfind]
                rfl
              obtain ⟨n', hn', hname, hdir⟩ := ih c ms n h
              exact ⟨n', by
                simp only [insertPath, hc, if_true, reach, TreeNode.children, hup]
                exact hn', hname, hdir⟩
            · have hup : (updateNamed seg (fun x => insertPath rest x) cs).find?
                  (fun x => x.name == m) = some c := by
                rw [find?_updateNamed_ne seg m _ _ (fun x => insertPath_name rest x) hm,
                  hfind]
              exact ⟨n, by
                simp only [insertPath, hc, if_true, reach, TreeNode.children, hup]
                exact h, rfl, rfl⟩
          · rw [Bool.not_eq_true] at hc
            have happ : (cs ++ [insertPath rest (TreeNode.mk seg sd [])]).find?
                (fun x => x.name == m) = some c := find?_append_left _ _ _ hfind
            exact ⟨n, by
              simp only [insertPath, hc, Bool.false_eq_true, if_false, reach,
                TreeNode.children, happ]
              exact h, rfl, rfl⟩

theorem reach_foldl_pres (urls : List String) (base : Option String) (t : TreeNode)
    (names : List String) (h : (reach t names).isSome = true) :
    (reach (urls.foldl (fun r x => insertPath (segsOf base x) r) t) names).isSome
      = true := by
  induction urls generalizing t with
  | nil => exact h
  | cons v urls ih =>
    obtain ⟨n, hn⟩ := Option.isSome_iff_exists.mp h
    obtain ⟨n', hn', -, -⟩ := reach_insertPath_pres (segsOf base v) t names n hn
    exact ih _ (Option.isSome_iff_exists.mpr ⟨n', hn'⟩)

theorem reach_fold_mem (urls : List String) (base : Option String) (u : String)
    (hu : u ∈ urls) (t : TreeNode) :
    (reach (urls.foldl (fun r x => insertPath (segsOf base x) r) t)
      ((segsOf base u).map Prod.fst)).isSome = true := by
  induction urls generalizing t with
  | nil => cases hu
  | cons v urls ih =>
    rcases List.mem_cons.mp hu with h | h
    · subst h
      exact reach_foldl_pres urls base _ _ (reach_insertPath_isSome _ _)
    · exact ih h _

theorem build_tree_reach (urls : List String) (base : Option String) (u : String)
    (hu : u ∈ urls) :
    (reach (build_tree urls base) ((segsOf base u).map Prod.fst)).isSome = true :=
  reach_fold_mem urls base u hu _

theorem nodup_fold (urls : List String) (base : Option String) (t : TreeNode)
    (h : nodupNames t) :
    nodupNames (urls.foldl (fun r x => insertPath (segsOf base x) r) t) := by
  induction urls generalizing t with
  | nil => exact h
  | cons v urls ih => exact ih _ (nodupNames_insertPath _ _ h)

theorem build_tree_nodup (urls : List String) (base : Option String) :
    nodupNames (build_tree urls base) := by
  rw [build_tree]
  refine nodup_fold urls base _ ?_
  rw [nodupNames]
  exact ⟨List.nodup_nil, trivial⟩

/-! ## Lemmas about the aggregator -/

theorem bumpSubdir_total_dirs (c : Counts) (p : String) :
    (bumpSubdir c p).total_dirs = c.total_dirs := rfl

theorem bumpSubdir_total_files (c : Counts) (p : String) :
    (bumpSubdir c p).total_files = c.total_files := rfl

theorem bumpFile_total_dirs (c : Counts) (p cn : String) :
    (bumpFile c p cn).total_dirs = c.total_dirs := rfl

theorem bumpFile_total_files (c : Counts) (p cn : String) :
    (bumpFile c p cn).total_files = c.total_files + 1 := rfl

theorem ndirs_cons (child : TreeNode) (rest : List TreeNode) :
    ndirs (child :: rest) = (if child.is_dir then 1 else 0) + ndirs rest := by
  by_cases h : child.is_dir = true
  all_goals simp [ndirs, List.filter_cons, h]
  all_goals omega

theorem nfiles_cons (child : TreeNode) (rest : List TreeNode) :
    nfiles (child :: rest) = (if child.is_dir then 0 else 1) + nfiles rest := by
  by_cases h : child.is_dir = true
  all_goals simp [nfiles, List.filter_cons, h]
  all_goals omega

theorem count_directories_file (n : TreeNode) (c : Counts) (cp : String)
    (h : n.is_dir = false) : count_directories n c cp = c := by
  cases n with
  | mk nm d cs =>
    rw [TreeNode.is_dir] at h
    subst h
    rfl

theorem counts_totals (n : TreeNode) (c : Counts) (cp : String) :
    (count_directories n c cp).total_dirs = c.total_dirs + specDirs n
      ∧ (count_directories n c cp).total_files = c.total_files + specFiles n := by
  refine count_directories.induct
    (fun n c cp =>
      (count_directories n c cp).total_dirs = c.total_dirs + specDirs n
        ∧ (count_directories n c cp).total_files = c.total_files + specFiles n)
    (fun path cs c =>
      (countChildren path cs c).total_dirs = c.total_dirs + specDirsList cs
        ∧ (countChildren path cs c).total_files
            = c.total_files + nfiles cs + specFilesList cs)
    ?_ ?_ ?_ ?_ n c cp
  · intro nm cs counts current_path ih
    obtain ⟨ih1, ih2⟩ := ih
    simp only [count_directories, if_true, specDirs, specFiles]
    refine ⟨?_, ?_⟩
    · rw [ih1]; dsimp only; omega
    · rw [ih2]; dsimp only; omega
  · intro nm d cs counts current_path hd
    rw [Bool.not_eq_true] at hd
    subst hd
    simp only [count_directories, Bool.false_eq_true, if_false, specDirs, specFiles]
    omega
  · intro x c
    simp [countChildren, specDirsList, specFilesList, nfiles]
  · intro path child rest c ih1 ih2
    obtain ⟨iha, ihb⟩ := ih1
    obtain ⟨ihc, ihd⟩ := ih2
    simp only [countChildren, specDirsList, specFilesList, nfiles_cons]
    by_cases hd : child.is_dir = true
    · rw [ihc, ihd, iha, ihb]
      simp [hd, bumpSubdir_total_dirs, bumpSubdir_total_files]
      omega
    · rw [Bool.not_eq_true] at hd
      rw [ihc, ihd, iha, ihb]
      simp [hd, bumpFile_total_dirs, bumpFile_total_files]
      omega

theorem specDirs_eq_subdirs (n : TreeNode) :
    specDirs n = (if n.is_dir then 1 else 0) + specSubdirs n := by
  refine specDirs.induct
    (fun n => specDirs n = (if n.is_dir then 1 else 0) + specSubdirs n)
    (fun cs => specDirsList cs = ndirs cs + specSubdirsList cs)
    ?_ ?_ ?_ ?_ n
  · intro nm cs ih
    simp only [specDirs, specSubdirs, TreeNode.is_dir, if_true, ih]
  · intro nm d cs hd
    rw [Bool.not_eq_true] at hd
    subst hd
    simp [specDirs, specSubdirs, TreeNode.is_dir]
  · simp [specDirsList, specSubdirsList, ndirs]
  · intro c cs ih1 ih2
    have hsf : c.is_dir = false → specSubdirs c = 0 := by
      intro hd
      cases c with
      | mk a b cc =>
        rw [TreeNode.is_dir] at hd
        subst hd
        rfl
    simp only [specDirsList, specSubdirsList, ndirs_cons, ih1, ih2]
    by_cases hd : c.is_dir = true
    · simp only [hd, if_true]
      omega
    · rw [Bool.not_eq_true] at hd
      simp only [hd, Bool.false_eq_true, if_false, hsf hd]
      omega

theorem bumpSubdir_dirs_ne (c : Counts) (p q : String) (h : q ≠ p) :
    (bumpSubdir c p).directories q = c.directories q := by
  simp [bumpSubdir, h]

theorem bumpFile_dirs_ne (c : Counts) (p cn q : String) (h : q ≠ p) :
    (bumpFile c p cn).directories q = c.directories q := by
  simp [bumpFile, h]

theorem bumpSubdir_dirs_self (c : Counts) (p : String) :
    (bumpSubdir c p).directories p
      = { c.directories p with subdirs := (c.directories p).subdirs + 1 } := by
  simp [bumpSubdir]

theorem bumpFile_dirs_self (c : Counts) (p cn : String) :
    (bumpFile c p cn).directories p
      = { c.directories p with
          files := (c.directories p).files + 1,
          items := (c.directories p).items ++ [cn] } := by
  simp [bumpFile]

theorem count_directories_untouched (p : String) (n : TreeNode) (c : Counts)
    (cp : String) (h : nodesAt p n cp = []) :
    (count_directories n c cp).directories p = c.directories p := by
  refine count_directories.induct
    (fun n c cp => nodesAt p n cp = [] →
      (count_directories n c cp).directories p = c.directories p)
    (fun path cs c => p ≠ path → nodesAtList p cs (path ++ "/") = [] →
      (countChildren path cs c).directories p = c.directories p)
    ?_ ?_ ?_ ?_ n c cp h
  · intro nm cs counts current_path ih hn
    simp only [nodesAt, if_true, List.append_eq_nil] at hn
    have hq : joinPath current_path nm ≠ p := by
      intro hcon
      simp [hcon] at hn
    simp only [count_directories, if_true]
    exact ih (fun hcon => hq hcon.symm) hn.2
  · intro nm d cs counts current_path hd _
    rw [Bool.not_eq_true] at hd
    subst hd
    rfl
  · intro x c _ _
    rfl
  · intro path child rest c ih1 ih2 hne hn
    simp only [nodesAtList, List.append_eq_nil] at hn
    simp only [countChildren]
    rw [ih2 hne hn.2, ih1 hn.1]
    by_cases hd : child.is_dir = true
    · simp only [hd, if_true]
      exact bumpSubdir_dirs_ne c path p hne
    · simp only [hd, if_false]
      exact bumpFile_dirs_ne c path child.name p hne

theorem countChildren_untouched (p path : String) (cs : List TreeNode) (c : Counts)
    (hne : p ≠ path) (h : nodesAtList p cs (path ++ "/") = []) :
    (countChildren path cs c).directories p = c.directories p := by
  induction cs generalizing c with
  | nil => rfl
  | cons child rest ih =>
    simp only [nodesAtList, List.append_eq_nil] at h
    simp only [countChildren]
    rw [ih _ h.2, count_directories_untouched p child _ _ h.1]
    by_cases hd : child.is_dir = true
    · simp only [hd, if_true]
      exact bumpSubdir_dirs_ne c path p hne
    · simp only [hd, if_false]
      exact bumpFile_dirs_ne c path child.name p hne

theorem append_eq_single {α : Type} (xs ys : List α) (v : α) (h : xs ++ ys = [v]) :
    (xs = [] ∧ ys = [v]) ∨ (xs = [v] ∧ ys = []) := by
  cases xs with
  | nil => exact Or.inl ⟨rfl, h⟩
  | cons a xs =>
    rw [List.cons_append, List.cons_eq_cons] at h
    obtain ⟨ha, htail⟩ := h
    rw [List.append_eq_nil] at htail
    exact Or.inr ⟨by rw [ha, htail.1], htail.2⟩

theorem fileNames_cons_dir (child : TreeNode) (rest : List TreeNode)
    (h : child.is_dir = true) : fileNames (child :: rest) = fileNames rest := by
  simp [fileNames, List.filter_cons, h]

theorem fileNames_cons_file (child : TreeNode) (rest : List TreeNode)
    (h : child.is_dir = false) :
    fileNames (child :: rest) = child.name :: fileNames rest := by
  simp [fileNames, List.filter_cons, h]

theorem countChildren_at_self (p : String) (cs : List TreeNode) (c : Counts)
    (h : nodesAtList p cs (p ++ "/") = []) :
    (countChildren p cs c).directories p
      = { subdirs := (c.directories p).subdirs + ndirs cs,
          files := (c.directories p).files + nfiles cs,
          items := (c.directories p).items ++ fileNames cs } := by
  induction cs generalizing c with
  | nil =>
    simp [countChildren, ndirs, nfiles, fileNames]
  | cons child rest ih =>
    simp only [nodesAtList, List.append_eq_nil] at h
    simp only [countChildren]
    rw [ih _ h.2, count_directories_untouched p child _ _ h.1]
    by_cases hd : child.is_dir = true
    · rw [fileNames_cons_dir child rest hd]
      simp only [hd, if_true, bumpSubdir_dirs_self, ndirs_cons, nfiles_cons]
      simp only [hd, if_true, DirInfo.mk.injEq]
      refine ⟨by omega, by omega, by simp⟩
    · rw [Bool.not_eq_true] at hd
      rw [fileNames_cons_file child rest hd]
      simp only [hd, Bool.false_eq_true, if_false, bumpFile_dirs_self, ndirs_cons,
        nfiles_cons]
      simp only [hd, Bool.false_eq_true, if_false, DirInfo.mk.injEq]
      refine ⟨by omega, by omega, by simp⟩

theorem count_dirs_single (p : String) (n : TreeNode) (c : Counts) (cp : String)
    (v : TreeNode) (h : nodesAt p n cp = [v]) :
    (count_directories n c cp).directories p
      = { subdirs := (c.directories p).subdirs + ndirs v.children,
          files := (c.directories p).files + nfiles v.children,
          items := (c.directories p).items ++ fileNames v.children } := by
  refine count_directories.induct
    (fun n c cp => ∀ v, nodesAt p n cp = [v] →
      (count_directories n c cp).directories p
        = { subdirs := (c.directories p).subdirs + ndirs v.children,
            files := (c.directories p).files + nfiles v.children,
            items := (c.directories p).items ++ fileNames v.children })
    (fun path cs c => ∀ v, p ≠ path → nodesAtList p cs (path ++ "/") = [v] →
      (countChildren path cs c).directories p
        = { subdirs := (c.directories p).subdirs + ndirs v.children,
            files := (c.directories p).files + nfiles v.children,
            items := (c.directories p).items ++ fileNames v.children })
    ?_ ?_ ?_ ?_ n c cp v h
  · intro nm cs counts current_path ih v hv
    simp only [nodesAt, if_true] at hv
    simp only [count_directories, if_true]
    by_cases hq : joinPath current_path nm = p
    · rw [hq] at hv
      simp only [if_true] at hv
      rw [List.singleton_append, List.cons_eq_cons] at hv
      obtain ⟨hv1, hv2⟩ := hv
      rw [hq]
      rw [countChildren_at_self p cs _ hv2]
      rw [← hv1]
      rfl
    · simp only [hq, if_false, List.nil_append] at hv
      exact ih v (fun hh => hq hh.symm) hv
  · intro nm d cs counts current_path hd v hv
    rw [Bool.not_eq_true] at hd
    subst hd
    simp [nodesAt] at hv
  · intro x c v _ hv
    simp [nodesAtList] at hv
  · intro path child rest c ih1 ih2 v hne hv
    simp only [nodesAtList] at hv
    simp only [countChildren]
    have hbump : (if child.is_dir = true then bumpSubdir c path
        else bumpFile c path child.name).directories p = c.directories p := by
      by_cases hd : child.is_dir = true
      · simp only [hd, if_true]
        exact bumpSubdir_dirs_ne c path p hne
      · simp only [hd, if_false]
        exact bumpFile_dirs_ne c path child.name p hne
    rcases append_eq_single _ _ _ hv with ⟨h1, h2⟩ | ⟨h1, h2⟩
    · have key := ih2 v hne h2
      rw [count_directories_untouched p child _ _ h1, hbump] at key
      exact key
    · have hc2 := ih1 v h1
      rw [hbump] at hc2
      rw [countChildren_untouched p path rest _ hne h2, hc2]

/-! ## Lemmas about the classifiers -/

theorem listContains_cons (c : Char) (t kw : List Char) (h : listContains t kw = true) :
    listContains (c :: t) kw = true := by
  have hdef : listContains (c :: t) kw = (kw.isPrefixOf (c :: t) || listContains t kw) :=
    rfl
  rw [hdef, h, Bool.or_true]

theorem listContains_of_isPrefixOf (cs kw : List Char) (h : kw.isPrefixOf cs = true) :
    listContains cs kw = true := by
  cases cs with
  | nil =>
    have hdef : listContains [] kw = (kw.isPrefixOf ([] : List Char) || false) := rfl
    rw [hdef, h]
    rfl
  | cons c t =>
    have hdef : listContains (c :: t) kw = (kw.isPrefixOf (c :: t) || listContains t kw) :=
      rfl
    rw [hdef, h]
    rfl

theorem wwScan_implies_contains (cs : List Char) (prev : Option Char)
    (h : wwScan prev cs = true) :
    sensitive_keywords.any (fun kw => listContains cs kw.toList) = true := by
  induction cs generalizing prev with
  | nil =>
    rw [wwScan] at h
    simp [wwHere, sensitive_keywords, List.isPrefixOf] at h
  | cons c t ih =>
    rw [wwScan] at h
    rcases Bool.or_eq_true_iff.mp h with hhere | htail
    · obtain ⟨kw, hmem, hkw⟩ := List.any_eq_true.mp hhere
      rcases Bool.and_eq_true_iff.mp hkw with ⟨hpre, -⟩
      exact List.any_eq_true.mpr
        ⟨kw, hmem, listContains_of_isPrefixOf _ _ hpre⟩
    · obtain ⟨kw, hmem, hkw⟩ := List.any_eq_true.mp (ih (some c) htail)
      exact List.any_eq_true.mpr ⟨kw, hmem, listContains_cons c t _ hkw⟩

theorem sensSearch_implies_substr (f : String) (h : sensSearch f = true) :
    substrSens f = true := by
  rw [sensSearch] at h
  have := wwScan_implies_contains _ _ h
  rw [substrSens]
  obtain ⟨kw, hmem, hkw⟩ := List.any_eq_true.mp this
  exact List.any_eq_true.mpr ⟨kw, hmem, hkw⟩

/-! ## Lemmas about the line parser -/

theorem tryUrlAt_nil : tryUrlAt [] = none := rfl

theorem tryUrlAt_cons_ne (c : Char) (cs : List Char) (h : ¬c = 'h') :
    tryUrlAt (c :: cs) = none := by
  have h7 : "http://".toList = 'h' :: "ttp://".toList := rfl
  have h8 : "https://".toList = 'h' :: "ttps://".toList := rfl
  have hb : ('h' == c) = false := by
    rw [beq_eq_false_iff_ne]
    exact fun e => h e.symm
  rw [tryUrlAt, h7, h8]
  simp [List.isPrefixOf, hb]

theorem findUrl_cons_none (c : Char) (cs : List Char)
    (h : tryUrlAt (c :: cs) = none) : findUrl (c :: cs) = findUrl cs := by
  simp [findUrl, h]

theorem findUrl_status_irrelevant (line : String) :
    findUrl (("200 " ++ line).toList) = findUrl (("404 " ++ line).toList) := by
  have h2 : ("200 " ++ line).toList = '2' :: '0' :: '0' :: ' ' :: line.toList :=
    String.data_append "200 " line
  have h4 : ("404 " ++ line).toList = '4' :: '0' :: '4' :: ' ' :: line.toList :=
    String.data_append "404 " line
  rw [h2, h4]
  rw [findUrl_cons_none _ _ (tryUrlAt_cons_ne _ _ (by decide)),
    findUrl_cons_none _ _ (tryUrlAt_cons_ne _ _ (by decide)),
    findUrl_cons_none _ _ (tryUrlAt_cons_ne _ _ (by decide)),
    findUrl_cons_none _ _ (tryUrlAt_cons_ne _ _ (by decide)),
    findUrl_cons_none _ _ (tryUrlAt_cons_ne _ _ (by decide)),
    findUrl_cons_none _ _ (tryUrlAt_cons_ne _ _ (by decide)),
    findUrl_cons_none _ _ (tryUrlAt_cons_ne _ _ (by decide)),
    findUrl_cons_none _ _ (tryUrlAt_cons_ne _ _ (by decide))]

theorem findUrl_isSome_iff (cs : List Char) :
    (findUrl cs).isSome = true ↔ ∃ n, (tryUrlAt (cs.drop n)).isSome = true := by
  induction cs with
  | nil =>
    simp [findUrl, List.drop_nil, tryUrlAt_nil]
  | cons c t ih =>
    cases htry : tryUrlAt (c :: t) with
    | some u =>
      simp only [findUrl, htry, Option.isSome_some, true_iff]
      exact ⟨0, by simp [htry]⟩
    | none =>
      simp only [findUrl, htry]
      rw [ih]
      constructor
      · rintro ⟨n, hn⟩
        exact ⟨n + 1, by simpa using hn⟩
      · rintro ⟨n, hn⟩
        cases n with
        | zero => simp [htry] at hn
        | succ n => exact ⟨n, by simpa using hn⟩

/-! ## Lemmas about the base-URL detector -/

theorem pickMax_spec (urls : List String) (first : String) (rest : List String) :
    (pickMax urls first rest = first ∨ pickMax urls first rest ∈ rest)
      ∧ urlMatches urls first ≤ urlMatches urls (pickMax urls first rest)
      ∧ ∀ x ∈ rest, urlMatches urls x ≤ urlMatches urls (pickMax urls first rest) := by
  induction rest generalizing first with
  | nil => exact ⟨Or.inl rfl, le_refl _, by simp⟩
  | cons y rest ih =>
    by_cases hc : urlMatches urls first < urlMatches urls y
    · have hstep : pickMax urls first (y :: rest) = pickMax urls y rest := by
        show pickMax urls
          (if urlMatches urls first < urlMatches urls y then y else first) rest = _
        rw [if_pos hc]
      obtain ⟨m1, m2, m3⟩ := ih y
      rw [hstep]
      refine ⟨?_, le_trans (le_of_lt hc) m2, ?_⟩
      · rcases m1 with h | h
        · exact Or.inr (by rw [h]; exact List.mem_cons_self y rest)
        · exact Or.inr (List.mem_cons_of_mem y h)
      · intro x hx
        rcases List.mem_cons.mp hx with h | h
        · subst h
          exact m2
        · exact m3 x h
    · have hstep : pickMax urls first (y :: rest) = pickMax urls first rest := by
        show pickMax urls
          (if urlMatches urls first < urlMatches urls y then y else first) rest = _
        rw [if_neg hc]
      obtain ⟨m1, m2, m3⟩ := ih first
      rw [hstep]
      refine ⟨?_, m2, ?_⟩
      · rcases m1 with h | h
        · exact Or.inl h
        · exact Or.inr (List.mem_cons_of_mem y h)
      · intro x hx
        rcases List.mem_cons.mp hx with h | h
        · subst h
          exact le_trans (by omega) m2
        · exact m3 x h

theorem validOrder_singleton (urls : List String) (o : String) (ord : List String)
    (ho : origins urls = [o]) (hv : validOrder urls ord) : ord = [o] := by
  obtain ⟨hnd, hiff⟩ := hv
  have hall : ∀ y ∈ ord, y = o := by
    intro y hy
    have hmem := (hiff y).mp hy
    rw [ho, List.mem_singleton] at hmem
    exact hmem
  have ho1 : o ∈ ord := (hiff o).mpr (by rw [ho]; exact List.mem_singleton_self o)
  cases ord with
  | nil => cases ho1
  | cons x t =>
    have hx : x = o := hall x (List.mem_cons_self x t)
    cases t with
    | nil => rw [hx]
    | cons z t2 =>
      have hz : z = o := hall z (by simp)
      rw [List.nodup_cons] at hnd
      exact absurd (by rw [hx, ← hz]; exact List.mem_cons_self z t2) hnd.1

/-! ## Lemmas about the All-Files categorisation -/

theorem addToGroups_not_mem (groups : List (String × List String)) (e url u : String)
    (hne : url ≠ u) (h : ∀ g ∈ groups, u ∉ g.2) :
    ∀ g ∈ addToGroups groups e url, u ∉ g.2 := by
  induction groups with
  | nil =>
    intro g hg
    rw [addToGroups] at hg
    rw [List.mem_singleton] at hg
    subst hg
    simp only [List.mem_singleton]
    exact fun hu => hne hu.symm
  | cons gg gs ih =>
    intro g hg
    rw [addToGroups] at hg
    by_cases hk : (gg.1 == e) = true
    · rw [if_pos hk] at hg
      rcases List.mem_cons.mp hg with hgeq | hgtl
      · subst hgeq
        simp only [List.mem_append, List.mem_singleton]
        rintro (hu | hu)
        · exact h gg (List.mem_cons_self gg gs) hu
        · exact hne hu.symm
      · exact h g (List.mem_cons_of_mem gg hgtl)
    · rw [if_neg hk] at hg
      rcases List.mem_cons.mp hg with hgeq | hgtl
      · subst hgeq
        exact h g (List.mem_cons_self g gs)
      · exact ih (fun g' hg' => h g' (List.mem_cons_of_mem gg hg')) g hgtl

theorem mem_insertSorted (x g : String × List String)
    (gs : List (String × List String)) (h : x ∈ insertSorted g gs) :
    x = g ∨ x ∈ gs := by
  induction gs with
  | nil =>
    rw [insertSorted, List.mem_singleton] at h
    exact Or.inl h
  | cons hd t ih =>
    rw [insertSorted] at h
    by_cases hcond : (compare hd.1 g.1 == Ordering.lt
        || compare hd.1 g.1 == Ordering.eq) = true
    · rw [if_pos hcond] at h
      rcases List.mem_cons.mp h with heq | htl
      · exact Or.inr (heq ▸ List.mem_cons_self hd t)
      · rcases ih htl with h1 | h1
        · exact Or.inl h1
        · exact Or.inr (List.mem_cons_of_mem hd h1)
    · rw [if_neg hcond] at h
      rcases List.mem_cons.mp h with heq | htl
      · exact Or.inl heq
      · exact Or.inr htl

theorem mem_sortGroups (g : String × List String) (gs : List (String × List String))
    (h : g ∈ sortGroups gs) : g ∈ gs := by
  induction gs with
  | nil => cases h
  | cons hd t ih =>
    rcases mem_insertSorted g hd (sortGroups t) h with h1 | h1
    · exact h1 ▸ List.mem_cons_self hd t
    · exact List.mem_cons_of_mem hd (ih h1)

theorem fold_groups_not_mem (urls : List String) (u : String) (hext : extOf u = "")
    (groups : List (String × List String)) (h : ∀ g ∈ groups, u ∉ g.2) :
    ∀ g ∈ urls.foldl (fun groups url =>
        if is_dir url then groups
        else if extOf url = "" then groups
        else addToGroups groups (extOf url) url) groups, u ∉ g.2 := by
  induction urls generalizing groups with
  | nil => exact h
  | cons v urls ih =>
    rw [List.foldl_cons]
    by_cases hv : is_dir v = true
    · rw [if_pos hv]
      exact ih groups h
    · rw [if_neg hv]
      by_cases he : extOf v = ""
      · rw [if_pos he]
        exact ih groups h
      · rw [if_neg he]
        refine ih _ (addToGroups_not_mem groups (extOf v) v u ?_ h)
        intro hvu
        exact he (hvu ▸ hext)

theorem categorize_not_mem (urls : List String) (u : String) (hext : extOf u = "") :
    ∀ g ∈ categorize_source_files urls, u ∉ g.2 := by
  intro g hg
  refine fold_groups_not_mem urls u hext [] (by simp) g ?_
  exact mem_sortGroups g _ hg

theorem is_file_important_none (f : String) (hkw : substrSens f = false)
    (hext : splitextExt (pyLower f) = "") : is_file_important f = false := by
  have hc : important_extensions.contains "" = false := by decide
  simp only [is_file_important, hkw, Bool.false_eq_true, if_false, hext, hc]

/-! ## The claims -/

/-- Claim C1, counterexample: two records differing only in the casing of
their path produce two distinct sibling nodes in the tree the builder
hands on; nothing collapses resources case-insensitively, so the
"at most one record per case-insensitive path / upper-case preferred"
deduplication of the claim does not exist in the code. -/
theorem claim_c1_counterexample :
    build_tree ["http://h/ADMIN", "http://h/admin"] none
      = TreeNode.mk "/" true
          [TreeNode.mk "ADMIN" false [], TreeNode.mk "admin" false []]
      ∧ pyLower "ADMIN" = pyLower "admin" :=
  ⟨rfl, rfl⟩

/-- Claim C1 (amended): the only collapsing is by exact, case-sensitive
path: re-inserting an already-present resource leaves the tree unchanged
(so the first-encountered record's node wins — no fully-upper-case
preference and no last-encountered preference), and `add_child` on an
existing name returns the parent untouched. -/
theorem claim_c1 :
    (∀ urls base u,
        build_tree (urls ++ [u, u]) base = build_tree (urls ++ [u]) base)
      ∧ (∀ (t : TreeNode) (nm : String) (d : Bool),
          t.hasChild nm = true → t.add_child nm d = t) := by
  refine ⟨fun urls base u => build_tree_dup urls base u, ?_⟩
  intro t nm d h
  simp only [TreeNode.add_child, h, if_true]

/-- Claim C1 witness: the amended statement at concrete inputs. -/
theorem claim_c1_witness :
    build_tree (["http://h/x"] ++ ["http://h/a", "http://h/a"]) none
        = build_tree (["http://h/x"] ++ ["http://h/a"]) none
      ∧ (TreeNode.mk "/" true [TreeNode.mk "a" false []]).add_child "a" true
          = TreeNode.mk "/" true [TreeNode.mk "a" false []] :=
  ⟨claim_c1.1 ["http://h/x"] none "http://h/a",
   claim_c1.2 (TreeNode.mk "/" true [TreeNode.mk "a" false []]) "a" true (by decide)⟩

/-- Claim C2, counterexample: the children dict is keyed by the exact
(original-case) segment name, not by the lower-cased name, so one node ends
up with two children whose names differ only in case. -/
theorem claim_c2_counterexample :
    build_tree ["http://h/x/Cfg", "http://h/x/CFG"] none
      = TreeNode.mk "/" true
          [TreeNode.mk "x" true
            [TreeNode.mk "Cfg" false [], TreeNode.mk "CFG" false []]]
      ∧ pyLower "Cfg" = pyLower "CFG" :=
  ⟨rfl, rfl⟩

/-- Claim C2 (amended): in every tree the builder produces, no two children
of any node share an exact segment name (uniqueness is case-sensitive; the
case-insensitive sibling uniqueness of the claim does not hold). -/
theorem claim_c2 (urls : List String) (base : Option String) :
    nodupNames (build_tree urls base) :=
  build_tree_nodup urls base

/-- Claim C3, counterexample: after inserting `/a` as a file and then
`/a/b`, the node `a` has acquired the child `b` but still has
`is_dir = false` — it is not promoted to a directory. -/
theorem claim_c3_counterexample :
    reach (build_tree ["http://h/a", "http://h/a/b"] none) ["a"]
        = some (TreeNode.mk "a" false [TreeNode.mk "b" false []])
      ∧ (TreeNode.mk "a" false [TreeNode.mk "b" false []]).is_dir = false :=
  ⟨rfl, rfl⟩

/-- Claim C3 (amended): the builder is a total function (never raises) that
never changes the kind of an existing node — an intermediate segment that
already exists as a file node keeps `kind=file` — while the deeper path's
nodes are still inserted beneath it rather than dropped. -/
theorem claim_c3 :
    (∀ segs t names n, reach t names = some n →
        ∃ n', reach (insertPath segs t) names = some n'
          ∧ n'.name = n.name ∧ n'.is_dir = n.is_dir)
      ∧ (∀ segs t, (reach (insertPath segs t) (segs.map Prod.fst)).isSome = true) :=
  ⟨fun segs t names n h => reach_insertPath_pres segs t names n h,
   fun segs t => reach_insertPath_isSome segs t⟩

/-- Claim C3 witness: the amended statement at a concrete input (a file
node `a` receiving the deeper path `a/b`). -/
theorem claim_c3_witness :
    (∃ n', reach (insertPath [("a", true), ("b", false)]
          (TreeNode.mk "/" true [TreeNode.mk "a" false []])) ["a"] = some n'
        ∧ n'.name = (TreeNode.mk "a" false []).name
        ∧ n'.is_dir = (TreeNode.mk "a" false []).is_dir)
      ∧ (reach (insertPath [("a", true), ("b", false)]
          (TreeNode.mk "/" true [TreeNode.mk "a" false []]))
          ([("a", true), ("b", false)].map Prod.fst)).isSome = true :=
  ⟨claim_c3.1 [("a", true), ("b", false)]
      (TreeNode.mk "/" true [TreeNode.mk "a" false []]) ["a"]
      (TreeNode.mk "a" false []) rfl,
   claim_c3.2 [("a", true), ("b", false)]
      (TreeNode.mk "/" true [TreeNode.mk "a" false []])⟩

/-- Claim C4, counterexample: in `is_file_important` the keyword check is a
plain substring test, so "admin" inside the larger word "badminton" makes
the file important, while the whole-word regex of
`identify_important_files` (modelled by `sensSearch`) correctly rejects
it — keywords do not match "only as whole words" in both classifiers. -/
theorem claim_c4_counterexample :
    is_file_important "badminton" = true ∧ sensSearch "badminton" = false :=
  ⟨rfl, rfl⟩

/-- Claim C4 (amended): `identify_important_files` matches keywords as
whole words, `is_file_important` as plain substrings (every whole-word
match is in particular a substring match), and in both classifiers a
keyword match takes precedence — it makes the file important regardless of
any extension rule. -/
theorem claim_c4 :
    (∀ f, sensSearch f = true → identifyPred f = true)
      ∧ (∀ f, substrSens f = true → is_file_important f = true)
      ∧ (∀ f, sensSearch f = true → substrSens f = true) := by
  refine ⟨?_, ?_, fun f h => sensSearch_implies_substr f h⟩
  · intro f h
    rw [identifyPred, h, Bool.true_or]
  · intro f h
    rw [is_file_important, if_pos h]

/-- Claim C4 witness: the amended statement at a concrete filename. -/
theorem claim_c4_witness :
    identifyPred "admin.php" = true ∧ is_file_important "admin.php" = true
      ∧ substrSens "admin.php" = true :=
  ⟨claim_c4.1 "admin.php" rfl, claim_c4.2.1 "admin.php" rfl,
   claim_c4.2.2 "admin.php" rfl⟩

/-- Claim C5, counterexample: on the tree consisting of only the root
directory, `total_dirs` is `1` while the sum of the per-directory
`subdirs` entries over all directory nodes is `0` (the root itself is
counted by `total_dirs` but is nobody's subdirectory), so `total_dirs`
does not equal the sum of the `subdirectory_count`s. -/
theorem claim_c5_counterexample :
    (count_directories (TreeNode.mk "/" true []) initCounts "/").total_dirs = 1
      ∧ ((count_directories (TreeNode.mk "/" true []) initCounts "/").directories
          "").subdirs = 0
      ∧ specSubdirs (TreeNode.mk "/" true []) = 0 :=
  ⟨rfl, rfl, rfl⟩

/-- Claim C5 (amended): `total_dirs` equals the number of directory nodes
reachable from the root through directory nodes, which is the root plus
the sum of the per-directory subdirectory counts (`specSubdirs`);
`total_files` equals the sum of the per-directory immediate file counts;
and for every visited directory node whose path key is hit exactly once,
the per-directory entry holds exactly its immediate children counted by
kind — immediate counts, not recursive descendant counts. -/
theorem claim_c5 :
    (∀ n c cp,
        (count_directories n c cp).total_dirs = c.total_dirs + specDirs n
          ∧ (count_directories n c cp).total_files = c.total_files + specFiles n)
      ∧ (∀ n, specDirs n = (if n.is_dir then 1 else 0) + specSubdirs n)
      ∧ (∀ n c cp p v, nodesAt p n cp = [v] →
          c.directories p = ⟨0, 0, []⟩ →
          (count_directories n c cp).directories p
            = ⟨ndirs v.children, nfiles v.children, fileNames v.children⟩) := by
  refine ⟨fun n c cp => counts_totals n c cp, fun n => specDirs_eq_subdirs n, ?_⟩
  intro n c cp p v h hc
  rw [count_dirs_single p n c cp v h, hc]
  simp

/-- Claim C5 witness: the amended statement at a concrete two-level tree:
the directory `app` with one file child and one directory child gets the
entry `{subdirs := 1, files := 1, items := ["x"]}`. -/
theorem claim_c5_witness :
    (count_directories
        (TreeNode.mk "/" true [TreeNode.mk "app" true
          [TreeNode.mk "x" false [], TreeNode.mk "y" true []]])
        initCounts "/").directories "/app"
      = ⟨ndirs (TreeNode.mk "app" true
            [TreeNode.mk "x" false [], TreeNode.mk "y" true []]).children,
         nfiles (TreeNode.mk "app" true
            [TreeNode.mk "x" false [], TreeNode.mk "y" true []]).children,
         fileNames (TreeNode.mk "app" true
            [TreeNode.mk "x" false [], TreeNode.mk "y" true []]).children⟩ :=
  claim_c5.2.2
    (TreeNode.mk "/" true [TreeNode.mk "app" true
      [TreeNode.mk "x" false [], TreeNode.mk "y" true []]])
    initCounts "/" "/app"
    (TreeNode.mk "app" true [TreeNode.mk "x" false [], TreeNode.mk "y" true []])
    rfl rfl

/-- Claim C6, counterexample: a line whose status token is `404` still
produces a record — the line parser never inspects a status code. -/
theorem claim_c6_counterexample :
    extract_urls ["404      GET     1234l      10w     512c http://h/app/x.php"]
      = ["http://h/app/x.php"] :=
  rfl

/-- Claim C6 (amended): the line parser performs no status-code filtering:
swapping the leading status token (200 versus 404) never changes the
result, and a line produces a record exactly when some position of the
line starts an `https?://` match with a non-space character after the
scheme. -/
theorem claim_c6 :
    (∀ line, findUrl (("200 " ++ line).toList) = findUrl (("404 " ++ line).toList))
      ∧ (∀ cs, (findUrl cs).isSome = true
          ↔ ∃ n, (tryUrlAt (cs.drop n)).isSome = true) :=
  ⟨fun line => findUrl_status_irrelevant line, fun cs => findUrl_isSome_iff cs⟩

/-- Claim C6 witness: the amended statement at a concrete line. -/
theorem claim_c6_witness :
    findUrl (("200 " ++ "GET http://h/a").toList)
        = findUrl (("404 " ++ "GET http://h/a").toList)
      ∧ (findUrl ("GET http://h/a".toList)).isSome = true :=
  ⟨claim_c6.1 "GET http://h/a",
   (claim_c6.2 ("GET http://h/a".toList)).mpr ⟨4, rfl⟩⟩

/-- Claim C7, counterexample: with two origins each prefixing one URL, the
winner of the majority vote is whichever origin the set iteration happens
to present first — both orders are valid enumerations of the same origin
set, yet they produce different results, so the tie-break is not a
function of the input (Python set order is not deterministic across
runs). -/
theorem claim_c7_counterexample :
    validOrder ["http://a/x", "http://b/x"] ["http://a", "http://b"]
      ∧ validOrder ["http://a/x", "http://b/x"] ["http://b", "http://a"]
      ∧ detect_base_url ["http://a", "http://b"] ["http://a/x", "http://b/x"]
          = some "http://a"
      ∧ detect_base_url ["http://b", "http://a"] ["http://a/x", "http://b/x"]
          = some "http://b" := by
  have ho : origins ["http://a/x", "http://b/x"] = ["http://a", "http://b"] := rfl
  refine ⟨⟨by decide, ?_⟩, ⟨by decide, ?_⟩, rfl, rfl⟩
  · intro o
    rw [ho]
  · intro o
    rw [ho]
    simp only [List.mem_cons, List.not_mem_nil, or_false]
    exact or_comm

/-- Claim C7 (amended): with a unique distinct origin the detector returns
it, on every valid enumeration of the origin set; with several origins it
returns an origin attaining the maximal prefix count — but which maximal
origin wins depends on the unspecified set order, so ties are not broken
deterministically. -/
theorem claim_c7 (urls ord : List String) (hv : validOrder urls ord)
    (hne : urls ≠ []) :
    (∀ o, origins urls = [o] → detect_base_url ord urls = some o)
      ∧ (ord ≠ [] →
          ∃ b, detect_base_url ord urls = some b ∧ b ∈ origins urls
            ∧ ∀ x ∈ origins urls, urlMatches urls x ≤ urlMatches urls b) := by
  have hempty : urls.isEmpty = false := by
    cases urls with
    | nil => exact absurd rfl hne
    | cons a t => rfl
  constructor
  · intro o ho
    have hord : ord = [o] := validOrder_singleton urls o ord ho hv
    subst hord
    rw [detect_base_url, hempty]
    rfl
  · intro hone
    obtain ⟨hnd, hiff⟩ := hv
    cases ord with
    | nil => exact absurd rfl hone
    | cons b rest =>
      cases rest with
      | nil =>
        refine ⟨b, by rw [detect_base_url, hempty]; rfl, (hiff b).mp (by simp), ?_⟩
        intro x hx
        have : x ∈ [b] := (hiff x).mpr hx
        rw [List.mem_singleton] at this
        subst this
        exact le_refl _
      | cons c t =>
        obtain ⟨m1, m2, m3⟩ := pickMax_spec urls b (c :: t)
        refine ⟨pickMax urls b (c :: t), by simp [detect_base_url, hempty], ?_, ?_⟩
        · rcases m1 with h | h
          · exact (hiff _).mp (by rw [h]; simp)
          · exact (hiff _).mp (List.mem_cons_of_mem b h)
        · intro x hx
          have hxo : x ∈ b :: c :: t := (hiff x).mpr hx
          rcases List.mem_cons.mp hxo with h | h
          · subst h
            exact m2
          · exact m3 x h

/-- Claim C7 witness: the amended statement at a concrete single-origin
input. -/
theorem claim_c7_witness :
    detect_base_url ["http://h"] ["http://h/a", "http://h/b"] = some "http://h" :=
  (claim_c7 ["http://h/a", "http://h/b"] ["http://h"]
    ⟨by decide,
     fun o => by
      rw [show origins ["http://h/a", "http://h/b"] = ["http://h"] from rfl]⟩
    (by decide)).1 "http://h" rfl

/-- Claim C8, counterexample: an extension-less file (`readme`) is present
in the tree and unhighlighted, but the All-Files categorisation silently
omits it (the output has no bucket at all), contradicting "still included
in the All-Files output". -/
theorem claim_c8_counterexample :
    categorize_source_files ["http://h/docs/readme"] = []
      ∧ reach (build_tree ["http://h/docs/readme"] none) ["docs", "readme"]
          = some (TreeNode.mk "readme" false [])
      ∧ is_file_important "readme" = false :=
  ⟨rfl, rfl, rfl⟩

/-- Claim C8 (amended): a file resource with no extension and no keyword
match is not highlighted (`is_file_important` is false) and its path is
present in the tree, but it is omitted from the All-Files output, which
only lists files with a non-empty extension. -/
theorem claim_c8 (urls : List String) (base : Option String) (u : String)
    (hu : u ∈ urls) (hkw : substrSens (basenameOf (urlPath u)) = false)
    (hext : splitextExt (basenameOf (urlPath u)) = "")
    (hextl : splitextExt (pyLower (basenameOf (urlPath u))) = "") :
    is_file_important (basenameOf (urlPath u)) = false
      ∧ (∀ g ∈ categorize_source_files urls, u ∉ g.2)
      ∧ (reach (build_tree urls base) ((segsOf base u).map Prod.fst)).isSome
          = true := by
  refine ⟨is_file_important_none _ hkw hextl, ?_, build_tree_reach urls base u hu⟩
  refine categorize_not_mem urls u ?_
  rw [extOf, hext]
  rfl

/-- Claim C8 witness: the amended statement at a concrete extension-less
file URL. -/
theorem claim_c8_witness :
    is_file_important (basenameOf (urlPath "http://h/docs/notes")) = false
      ∧ (∀ g ∈ categorize_source_files ["http://h/docs/notes"],
          "http://h/docs/notes" ∉ g.2)
      ∧ (reach (build_tree ["http://h/docs/notes"] none)
          ((segsOf none "http://h/docs/notes").map Prod.fst)).isSome = true :=
  claim_c8 ["http://h/docs/notes"] none "http://h/docs/notes" (by decide) rfl rfl rfl

/-- Claim C9, counterexample: the two importance checks are not
equivalent: `badminton.txt` satisfies `is_file_important` (substring
keyword "admin", and extension `.txt` is in its extension list) yet
`identify_important_files` does not list it (no whole-word keyword, `.txt`
not among its extension regexes). -/
theorem claim_c9_counterexample :
    identify_important_files ["http://h/badminton.txt"] = []
      ∧ is_file_important "badminton.txt" = true :=
  ⟨rfl, rfl⟩

/-- Claim C9 (amended): the two importance predicates disagree in both
directions: `identify_important_files` lists the dotfile `.htaccess`
(matched by its extension regex) which `is_file_important` rejects
(`splitext` yields no extension for a dotfile), and `is_file_important`
accepts `badminton.txt` (substring keyword, wider extension list) which
`identify_important_files` rejects. -/
theorem claim_c9 :
    identify_important_files ["http://h/.htaccess"]
        = [(".htaccess", "http://h/.htaccess")]
      ∧ is_file_important ".htaccess" = false
      ∧ identifyPred "badminton.txt" = false
      ∧ identifyPred ".htaccess" = true :=
  ⟨rfl, rfl, rfl, rfl⟩

/-- Claim C10 (confirmed): the aggregator returns its accumulator
untouched on any `kind=file` node and therefore never descends into such a
node's children: a whole subtree below a file node contributes nothing to
`total_dirs`, `total_files` or any per-directory entry, and `add_child`
never changes the kind of an existing node (the parent is returned
unchanged), which is how a file node can acquire children in the first
place. -/
theorem claim_c10 :
    (∀ n c cp, n.is_dir = false → count_directories n c cp = c)
      ∧ (∀ nm cn ccs cs c cp,
          count_directories
              (TreeNode.mk nm true (TreeNode.mk cn false ccs :: cs)) c cp
            = count_directories
              (TreeNode.mk nm true (TreeNode.mk cn false [] :: cs)) c cp)
      ∧ (∀ (t : TreeNode) (nm : String) (d : Bool),
          t.hasChild nm = true → t.add_child nm d = t) := by
  refine ⟨count_directories_file, ?_, ?_⟩
  · intro nm cn ccs cs c cp
    simp only [count_directories, if_true, countChildren, TreeNode.is_dir,
      TreeNode.name, Bool.false_eq_true, if_false]
  · intro t nm d h
    simp only [TreeNode.add_child, h, if_true]

/-- Claim C10 witness: the confirmed statement at concrete inputs: a file
node with a directory child leaves the counts untouched, and re-adding an
existing child (even with a different kind) leaves the parent unchanged. -/
theorem claim_c10_witness :
    count_directories (TreeNode.mk "f.txt" false [TreeNode.mk "sub" true []])
        initCounts "/" = initCounts
      ∧ (TreeNode.mk "/" true [TreeNode.mk "f.txt" false []]).add_child "f.txt" true
          = TreeNode.mk "/" true [TreeNode.mk "f.txt" false []] :=
  ⟨claim_c10.1 (TreeNode.mk "f.txt" false [TreeNode.mk "sub" true []])
      initCounts "/" rfl,
   claim_c10.2.2 (TreeNode.mk "/" true [TreeNode.mk "f.txt" false []])
      "f.txt" true (by decide)⟩
